import Mathlib

/-!
Shallow embedding of the core logic of `src/app.py` (Hymn PDF Combiner).

Python strings are modelled as `List Char`; the `re` patterns of the source are
translated into explicit structural checks on character lists.  ASCII digits and
ASCII case folding model Python's regex digit class and `str.lower` on the ASCII
filenames this application manipulates.  Filesystem lookups are modelled over
an explicit directory listing; their case rules are platform-dependent and
independent of each other, so the resolver takes two flags: `fsci` tells
whether `Path.exists` matches names case-insensitively (a filesystem property:
true on Windows and on default macOS volumes, false on case-sensitive POSIX
filesystems), and `globci` tells whether `Path.glob` matches its pattern
case-insensitively (a `pathlib` flavour property: true on Windows, false under
the posix flavour, hence false on macOS and Linux alike, whatever the
filesystem).  Windows is `(true, true)`, default macOS `(true, false)`,
case-sensitive POSIX `(false, false)`.
-/

namespace HymnCombiner

/-- ASCII digit test, modelling the regex digit class on these inputs. -/
def isDigitC (c : Char) : Bool :=
  decide (48 ≤ c.toNat) && decide (c.toNat ≤ 57)

/-- ASCII lower-casing of one character: models `str.lower` / `re.IGNORECASE`. -/
def lowerChar (c : Char) : Char :=
  if 65 ≤ c.toNat ∧ c.toNat ≤ 90 then Char.ofNat (c.toNat + 32) else c

/-- Lower-case a whole name. -/
def lowers (cs : List Char) : List Char :=
  cs.map lowerChar

/-- Separator class of `re.split` in `parse_hymn_numbers`: whitespace, comma or
semicolon. -/
def sepChar (c : Char) : Bool :=
  c.isWhitespace || decide (c = ',') || decide (c = ';')

/-- Python `str.strip`: drop leading and trailing whitespace. -/
def pyStrip (cs : List Char) : List Char :=
  ((cs.dropWhile Char.isWhitespace).reverse.dropWhile Char.isWhitespace).reverse

/-- Numeric value of a digit string: models `int(token)`. -/
def digitsVal (cs : List Char) : Nat :=
  cs.foldl (fun a c => 10 * a + (c.toNat - 48)) 0

/-- Full match of a token against the 1-to-4-digit number pattern. -/
def isNumTok (cs : List Char) : Bool :=
  decide (1 ≤ cs.length) && decide (cs.length ≤ 4) && cs.all isDigitC

/-- Full match of a token against the digits-hyphen-digits range pattern of
`parse_hymn_numbers`, returning the two endpoints on success.  The first group
can only be the maximal leading digit run, so the split is unique. -/
def parseRangeToken (tok : List Char) : Option (Nat × Nat) :=
  match tok.drop (tok.takeWhile isDigitC).length with
  | c :: b =>
    if c = '-' ∧ isNumTok (tok.takeWhile isDigitC) = true ∧ isNumTok b = true then
      some (digitsVal (tok.takeWhile isDigitC), digitsVal b)
    else none
  | [] => none

/-- `range(start, end + step, step)` with `step = 1 if end >= start else -1`. -/
def expandRange (s e : Nat) : List Nat :=
  if s ≤ e then List.range' s (e - s + 1) else (List.range' e (s - e + 1)).reverse

/-- Handling of one token inside the loop of `parse_hymn_numbers`: a range
token expands, a plain number token appends one value, anything else is
silently dropped. -/
def parseToken (tok : List Char) : List Nat :=
  match parseRangeToken tok with
  | some (s, e) => expandRange s e
  | none => if isNumTok tok then [digitsVal tok] else []

/-- Translation of `parse_hymn_numbers` from `src/app.py`: strip, return `[]`
on empty input, split on separator runs, drop empty tokens, process each token
in order. -/
def parse_hymn_numbers (raw : List Char) : List Nat :=
  let cs := pyStrip raw
  if cs = [] then []
  else (((cs.splitOnP sepChar).filter (fun t => t ≠ [])).map parseToken).flatten

/-- Fuel-driven decimal rendering; fuel `n + 1` is always enough for `n`. -/
def natStrAux : Nat → Nat → List Char → List Char
  | 0, _, acc => acc
  | f + 1, n, acc => if n = 0 then acc else natStrAux f (n / 10) (Char.ofNat (48 + n % 10) :: acc)

/-- Decimal digit string of a number: models the f-string interpolation of
`hymn_number` into the exact filename, the glob and the regex. -/
def natStr (n : Nat) : List Char :=
  if n = 0 then ['0'] else natStrAux (n + 1) n []

/-- A directory as the resolver sees it: whether it exists, and its entries
(file names). -/
structure Directory where
  dirExists : Bool
  files : List (List Char)
deriving DecidableEq

/-- The exact candidate name built by `pdf_dir / f"{hymn_number}.pdf"`. -/
def exactName (n : Nat) : List Char :=
  natStr n ++ ['.', 'p', 'd', 'f']

/-- `(pdf_dir / f"{hymn_number}.pdf").exists()`: `fsci` is the filesystem's
case rule; on a case-insensitive filesystem an entry matching up to case
suffices. -/
def hasExact (fsci : Bool) (d : Directory) (n : Nat) : Bool :=
  d.files.any (fun f =>
    cond fsci (decide (lowers f = lowers (exactName n))) (decide (f = exactName n)))

/-- `pdf_dir.glob(f"{hymn_number}_*.pdf")` applied to one entry name: the name
must start with the digits and an underscore and end with `.pdf`, the star
matching any (possibly empty) run of characters; `globci` is the `pathlib`
flavour's case rule — case folding applies exactly when the flavour globs
case-insensitively (Windows), not under the posix flavour, whatever the
underlying filesystem. -/
def globMatch (globci : Bool) (n : Nat) (name : List Char) : Bool :=
  let l := cond globci (lowers name) name
  let pre := natStr n ++ ['_']
  decide (l.take pre.length = pre) && decide (pre.length + 4 ≤ l.length) &&
    decide (l.drop (l.length - 4) = ['.', 'p', 'd', 'f'])

/-- Tail of the regex after the separator: at least one character that is not a
newline, then `.pdf` case-insensitively. -/
def matchesTailPdf (rest : List Char) : Bool :=
  decide (5 ≤ rest.length) && decide (lowers (rest.drop (rest.length - 4)) = ['.', 'p', 'd', 'f']) &&
    (rest.take (rest.length - 4)).all (fun c => decide (c ≠ '\n'))

/-- The regex re-check of the resolver, anchored at both ends and compiled with
`re.IGNORECASE`: the digits of `n`, then a dot or an underscore, then at least
one character, then `.pdf`.  The end anchor of the Python regex also matches
just before one trailing newline, hence the second disjunct. -/
def patternMatch (n : Nat) (name : List Char) : Bool :=
  decide (name.take (natStr n).length = natStr n) &&
    (match name.drop (natStr n).length with
     | c :: rest =>
       (decide (c = '.') || decide (c = '_')) &&
         (matchesTailPdf rest ||
           (decide (rest.getLast? = some '\n') && matchesTailPdf rest.dropLast))
     | [] => false)

/-- `pathlib` stem of a file name: cut at the last dot provided it is neither
the first nor the last character. -/
def stemChars (cs : List Char) : List Char :=
  match cs.reverse.findIdx? (fun c => decide (c = '.')) with
  | none => cs
  | some j =>
    let i := cs.length - 1 - j
    if 0 < i ∧ i < cs.length - 1 then cs.take i else cs

/-- Whether a character list starts with a digit. -/
def headIsDigit : List Char → Bool
  | [] => false
  | c :: _ => isDigitC c

/-- Leftmost case-insensitive occurrence of an underscore-PAGE marker followed
by at least one digit; the greedy digit group takes the maximal run. -/
def pageSearch : List Char → Option Nat
  | [] => none
  | c :: rest =>
    if lowers (List.take 5 (c :: rest)) = ['_', 'p', 'a', 'g', 'e'] ∧
        headIsDigit (List.drop 5 (c :: rest)) = true
    then some (digitsVal ((List.drop 5 (c :: rest)).takeWhile isDigitC))
    else pageSearch rest

/-- Primary sort key of the resolver: the page marker value found in the stem,
defaulting to zero. -/
def pageOf (cs : List Char) : Nat :=
  (pageSearch (stemChars cs)).getD 0

/-- The full sort key `(page, name.lower())` under the lexicographic tuple
order Python's `sorted` uses. -/
def fileKey (cs : List Char) : Lex (Nat × List Char) :=
  toLex (pageOf cs, lowers cs)

/-- Comparison modelling `sorted(..., key=sort_key)`. -/
def fileLE (a b : List Char) : Prop :=
  fileKey a ≤ fileKey b

instance : DecidableRel fileLE := fun a b =>
  inferInstanceAs (Decidable (fileKey a ≤ fileKey b))

instance : IsTotal (List Char) fileLE :=
  ⟨fun a b => le_total (fileKey a) (fileKey b)⟩

instance : IsTrans (List Char) fileLE :=
  ⟨fun _ _ _ h h' => le_trans h h'⟩

/-- Translation of `pdf_paths_for_hymn` from `src/app.py`: missing directory
yields no matches; otherwise the exact name (if present, per the filesystem's
case rule `fsci`) plus the glob hits (per the flavour's case rule `globci`)
re-validated by the regex, deduplicated and sorted by `(page, lowered name)`. -/
def pdf_paths_for_hymn (fsci globci : Bool) (pdf_dir : Directory) (hymn_number : Nat) : List (List Char) :=
  if pdf_dir.dirExists = false then []
  else
    let ms := (if hasExact fsci pdf_dir hymn_number then [exactName hymn_number] else []) ++
      pdf_dir.files.filter (fun name => globMatch globci hymn_number name && patternMatch hymn_number name)
    List.insertionSort fileLE ms.dedup

/-- The accumulation loop of `HymnCombinerApp.merge_pdfs`: files of each number
in order onto the flat list, numbers with no files onto the missing list. -/
def resolveAll (fsci globci : Bool) (d : Directory) : List Nat → List (List Char) × List Nat
  | [] => ([], [])
  | n :: ns =>
    let paths := pdf_paths_for_hymn fsci globci d n
    let rest := resolveAll fsci globci d ns
    if paths.isEmpty then (rest.1, n :: rest.2) else (paths ++ rest.1, rest.2)

/-- Outcome of the orchestration step. -/
inductive MergeOutcome where
  | noValidNumbers
  | noFilesFound (missing : List Nat)
  | success (files : List (List Char)) (missing : List Nat)
deriving DecidableEq

/-- Decision logic of `HymnCombinerApp.merge_pdfs`: empty parse fails with
no-valid-numbers, empty flat list fails with no-files-found carrying the
missing list, otherwise the merge proceeds with the files and the missing
list. -/
def app_merge_pdfs (fsci globci : Bool) (d : Directory) (raw : List Char) : MergeOutcome :=
  let nums := parse_hymn_numbers raw
  if nums.isEmpty then .noValidNumbers
  else
    let r := resolveAll fsci globci d nums
    if r.1.isEmpty then .noFilesFound r.2 else .success r.1 r.2

/-- Case-insensitive check that a name ends with `.pdf`, as in
`output_filename.lower().endswith(".pdf")`. -/
def endsWithPdf (cs : List Char) : Bool :=
  let l := lowers cs
  decide (4 ≤ l.length) && decide (l.drop (l.length - 4) = ['.', 'p', 'd', 'f'])

/-- The filename fixup of `start_merge`: append `.pdf` unless already present
up to case. -/
def ensure_pdf_ext (cs : List Char) : List Char :=
  if endsWithPdf cs then cs else cs ++ ['.', 'p', 'd', 'f']

/-- A POSIX-style path: absoluteness flag and components. -/
structure PyPath where
  isAbs : Bool
  comps : List (List Char)
deriving DecidableEq

/-- `Path(s)` for the simple names at play: absolute iff starting with a slash,
components the non-empty slash-separated pieces. -/
def pathOfChars (cs : List Char) : PyPath :=
  { isAbs := cs.head? = some '/',
    comps := (cs.splitOnP (fun c => decide (c = '/'))).filter (fun t => t ≠ []) }

/-- `Path.name`: the last component, empty if there is none. -/
def pyName (p : PyPath) : List Char :=
  p.comps.getLast?.getD []

/-- Joining one relative component, as in `self.output_dir / output_path.name`. -/
def pyJoin (p : PyPath) (comp : List Char) : PyPath :=
  { isAbs := p.isAbs, comps := p.comps ++ [comp] }

/-- `Path.parent`: drop the last component. -/
def pyParent (p : PyPath) : PyPath :=
  { isAbs := p.isAbs, comps := p.comps.dropLast }

/-- Output path selection of `HymnCombinerApp.merge_pdfs`: an absolute path is
used as given, a relative one is re-rooted in the output directory by its final
component. -/
def output_path_for (output_dir : PyPath) (filename : List Char) : PyPath :=
  let p := pathOfChars filename
  if p.isAbs then p else pyJoin output_dir (pyName p)

/-- Filesystem-effect events of the module-level `merge_pdfs`. -/
inductive FSEvent where
  | mkdirParents (dir : PyPath)
  | appendInput (file : List Char)
  | writeOutput (path : PyPath)
deriving DecidableEq

/-- Effect trace of the module-level `merge_pdfs`: create the parent directory
tree of the output path, append each input in order, write the output. -/
def merge_pdfs_events (input_paths : List (List Char)) (output_path : PyPath) : List FSEvent :=
  FSEvent.mkdirParents (pyParent output_path) ::
    (input_paths.map FSEvent.appendInput ++ [FSEvent.writeOutput output_path])

/-! ### Helper lemmas -/

theorem lowerChar_eq_of_digit {c : Char} (h : isDigitC c = true) : lowerChar c = c := by
  have h' : 48 ≤ c.toNat ∧ c.toNat ≤ 57 := by
    simpa [isDigitC, Bool.and_eq_true, decide_eq_true_eq] using h
  unfold lowerChar
  rw [if_neg]
  omega

theorem isDigitC_lowerChar (c : Char) : isDigitC (lowerChar c) = isDigitC c := by
  unfold lowerChar
  split
  · next h =>
    obtain ⟨h1, h2⟩ := h
    have hd : isDigitC c = false := by
      unfold isDigitC
      rw [decide_eq_false (by omega : ¬c.toNat ≤ 57), Bool.and_false]
    rw [hd]
    set m := c.toNat with hm
    interval_cases m <;> decide
  · rfl

theorem lowers_append (a b : List Char) : lowers (a ++ b) = lowers a ++ lowers b := by
  simp [lowers]

theorem lowers_cons (c : Char) (a : List Char) : lowers (c :: a) = lowerChar c :: lowers a := by
  simp [lowers]

theorem lowers_length (a : List Char) : (lowers a).length = a.length := by
  simp [lowers]

theorem lowers_eq_self_of_digits {l : List Char} (h : ∀ c ∈ l, isDigitC c = true) :
    lowers l = l := by
  induction l with
  | nil => rfl
  | cons a l ih =>
    rw [lowers_cons, lowerChar_eq_of_digit (h a (by simp)), ih (fun c hc => h c (by simp [hc]))]

theorem takeWhile_append_all {α : Type} (p : α → Bool) {as : List α} (bs : List α)
    (h : ∀ a ∈ as, p a = true) :
    (as ++ bs).takeWhile p = as ++ bs.takeWhile p := by
  induction as with
  | nil => simp
  | cons a as ih =>
    rw [List.cons_append, List.takeWhile_cons, h a (by simp), List.cons_append,
      ih (fun x hx => h x (by simp [hx]))]
    simp

theorem takeWhile_append_stop {α : Type} (p : α → Bool) {as : List α} {c : α} (bs : List α)
    (h : ∀ a ∈ as, p a = true) (hc : p c = false) :
    (as ++ c :: bs).takeWhile p = as := by
  rw [takeWhile_append_all p _ h, List.takeWhile_cons, hc]
  simp

theorem isDigitC_ofNat_digit {r : Nat} (h : r < 10) :
    isDigitC (Char.ofNat (48 + r)) = true := by
  interval_cases r <;> decide

theorem natStrAux_digits : ∀ (f n : Nat) (acc : List Char),
    (∀ c ∈ acc, isDigitC c = true) → ∀ c ∈ natStrAux f n acc, isDigitC c = true := by
  intro f
  induction f with
  | zero => intro n acc hacc; simpa [natStrAux] using hacc
  | succ f ih =>
    intro n acc hacc c hc
    unfold natStrAux at hc
    split at hc
    · exact hacc c hc
    · refine ih (n / 10) _ ?_ c hc
      intro d hd
      rcases List.mem_cons.mp hd with h | h
      · subst h
        exact isDigitC_ofNat_digit (Nat.mod_lt _ (by omega))
      · exact hacc d h

theorem natStr_digits (n : Nat) : ∀ c ∈ natStr n, isDigitC c = true := by
  unfold natStr
  split
  · intro c hc
    rcases List.mem_singleton.mp hc with rfl
    decide
  · exact natStrAux_digits _ _ _ (by intro c hc; cases hc)

theorem natStrAux_suffix : ∀ (f n : Nat) (acc : List Char), ∃ ds, natStrAux f n acc = ds ++ acc := by
  intro f
  induction f with
  | zero => intro n acc; exact ⟨[], rfl⟩
  | succ f ih =>
    intro n acc
    unfold natStrAux
    split
    · exact ⟨[], rfl⟩
    · obtain ⟨ds, hds⟩ := ih (n / 10) (Char.ofNat (48 + n % 10) :: acc)
      exact ⟨ds ++ [Char.ofNat (48 + n % 10)], by simp [hds]⟩

theorem natStr_ne_nil (n : Nat) : natStr n ≠ [] := by
  unfold natStr
  split
  · simp
  · next h =>
    show natStrAux (n + 1) n [] ≠ []
    unfold natStrAux
    rw [if_neg h]
    obtain ⟨ds, hds⟩ := natStrAux_suffix n (n / 10) [Char.ofNat (48 + n % 10)]
    simp [hds]

theorem lowers_natStr (n : Nat) : lowers (natStr n) = natStr n :=
  lowers_eq_self_of_digits (natStr_digits n)

theorem mem_pdf_paths {fsci globci : Bool} {d : Directory} {n : Nat} {name : List Char} :
    name ∈ pdf_paths_for_hymn fsci globci d n ↔
      d.dirExists = true ∧
        ((hasExact fsci d n = true ∧ name = exactName n) ∨
          (name ∈ d.files ∧ globMatch globci n name = true ∧ patternMatch n name = true)) := by
  unfold pdf_paths_for_hymn
  split
  · next h => simp [h]
  · next h =>
    have hd : d.dirExists = true := by
      revert h
      cases d.dirExists <;> simp
    rw [List.mem_insertionSort, List.mem_dedup, List.mem_append, List.mem_filter]
    by_cases hE : hasExact fsci d n = true <;> simp [hE, hd, Bool.and_eq_true]

theorem resolveAll_eq (fsci globci : Bool) (d : Directory) : ∀ ns : List Nat,
    resolveAll fsci globci d ns =
      ((ns.map (pdf_paths_for_hymn fsci globci d)).flatten,
        ns.filter (fun n => (pdf_paths_for_hymn fsci globci d n).isEmpty)) := by
  intro ns
  induction ns with
  | nil => rfl
  | cons n ns ih =>
    unfold resolveAll
    rw [ih]
    by_cases h : (pdf_paths_for_hymn fsci globci d n).isEmpty
    · have he : pdf_paths_for_hymn fsci globci d n = [] := List.isEmpty_iff.mp h
      simp [h, he]
    · simp [h]

theorem resolveAll_missing_of_empty (fsci globci : Bool) (d : Directory) (ns : List Nat)
    (h : (resolveAll fsci globci d ns).1 = []) : (resolveAll fsci globci d ns).2 = ns := by
  rw [resolveAll_eq] at h ⊢
  simp only at h ⊢
  rw [List.filter_eq_self]
  intro n hn
  rw [List.flatten_eq_nil_iff] at h
  have hm := h (pdf_paths_for_hymn fsci globci d n) (List.mem_map_of_mem _ hn)
  simp [List.isEmpty_iff, hm]

theorem isNumTok_digits {a : List Char} (h : isNumTok a = true) : ∀ c ∈ a, isDigitC c = true := by
  unfold isNumTok at h
  rw [Bool.and_eq_true, Bool.and_eq_true] at h
  intro c hc
  exact List.all_eq_true.mp h.2 c hc

theorem parseRangeToken_append {a b : List Char} (ha : isNumTok a = true) (hb : isNumTok b = true) :
    parseRangeToken (a ++ '-' :: b) = some (digitsVal a, digitsVal b) := by
  have ht : (a ++ '-' :: b).takeWhile isDigitC = a :=
    takeWhile_append_stop isDigitC b (isNumTok_digits ha) (by decide)
  unfold parseRangeToken
  rw [ht, List.drop_left]
  simp [ha, hb]

/-! ### Claim theorems: parsing -/

/-- C3: a token fully matching the digits-hyphen-digits range pattern expands to every
integer from start to end inclusive, ascending (step one up) when the end is at least
the start and descending (step one down) otherwise; a range with equal endpoints yields
exactly one number; and the literal examples parse as stated. -/
theorem claim_C3 :
    (∀ a b : List Char, isNumTok a = true → isNumTok b = true →
        parseToken (a ++ '-' :: b) = expandRange (digitsVal a) (digitsVal b)) ∧
      (∀ s e : Nat, s ≤ e → expandRange s e = List.range' s (e - s + 1)) ∧
      (∀ s e : Nat, e < s → expandRange s e = (List.range' e (s - e + 1)).reverse) ∧
      (∀ s : Nat, expandRange s s = [s]) ∧
      parse_hymn_numbers "1-3".toList = [1, 2, 3] ∧
      parse_hymn_numbers "5-3".toList = [5, 4, 3] ∧
      parse_hymn_numbers "4-4".toList = [4] := by
  refine ⟨?_, ?_, ?_, ?_, by decide, by decide, by decide⟩
  · intro a b ha hb
    unfold parseToken
    rw [parseRangeToken_append ha hb]
  · intro s e h
    unfold expandRange
    rw [if_pos h]
  · intro s e h
    unfold expandRange
    rw [if_neg (by omega)]
  · intro s
    unfold expandRange
    rw [if_pos (le_refl s)]
    simp

/-- Witness for C3 at a concrete range token. -/
theorem claim_C3_witness :
    parseToken (['1'] ++ '-' :: ['3']) = expandRange (digitsVal ['1']) (digitsVal ['3']) :=
  claim_C3.1 ['1'] ['3'] (by decide) (by decide)

/-- C4: the parser is total and never raises: a token matching neither the range nor the
plain-number pattern contributes nothing to the output, whitespace-only input yields the
empty list, and the literal garbage examples are dropped silently. -/
theorem claim_C4 :
    (∀ tok : List Char, parseRangeToken tok = none → isNumTok tok = false → parseToken tok = []) ∧
      (∀ raw : List Char, (∀ c ∈ raw, Char.isWhitespace c = true) → parse_hymn_numbers raw = []) ∧
      parse_hymn_numbers "1 abc 2-x 3".toList = [1, 3] ∧
      parse_hymn_numbers "".toList = [] ∧
      parse_hymn_numbers "   ".toList = [] ∧
      parse_hymn_numbers "12345".toList = [] ∧
      parse_hymn_numbers "1--2".toList = [] := by
  refine ⟨?_, ?_, by decide, by decide, by decide, by decide, by decide⟩
  · intro tok h1 h2
    unfold parseToken
    rw [h1]
    simp [h2]
  · intro raw h
    have h1 : raw.dropWhile Char.isWhitespace = [] := by
      rw [List.dropWhile_eq_nil_iff]
      intro x hx
      simp [h x hx]
    have hs : pyStrip raw = [] := by
      unfold pyStrip
      rw [h1]
      rfl
    unfold parse_hymn_numbers
    simp [hs]

/-- Witness for C4 at a concrete garbage token. -/
theorem claim_C4_witness : parseToken "2-x".toList = [] :=
  claim_C4.1 "2-x".toList (by decide) (by decide)

/-- C9: the parser enforces neither positivity nor canonical digit form: the token 0 is
accepted and appends 0, and zero-padded tokens of up to four digits append their numeric
value, so parsed sequences can contain 0 or values whose token had leading zeros. -/
theorem claim_C9 :
    parse_hymn_numbers "0".toList = [0] ∧
      parse_hymn_numbers "0007".toList = [7] ∧
      parse_hymn_numbers "0 0007 12".toList = [0, 7, 12] ∧
      parse_hymn_numbers "0-2".toList = [0, 1, 2] := by
  refine ⟨by decide, by decide, by decide, by decide⟩

/-! ### Claim theorems: orchestration -/

/-- C2: the flat output list of the resolution loop is exactly the concatenation of the
resolver's results over the parsed sequence in order (each duplicate occurrence
contributing independently), and the missing list collects exactly the numbers whose
resolver result is empty; concretely, the duplicated parse of the example input repeats
the files of hymn 3 and records 1 as missing. -/
theorem claim_C2 (fsci globci : Bool) (d : Directory) (raw : List Char) :
    (resolveAll fsci globci d (parse_hymn_numbers raw)).1 =
        ((parse_hymn_numbers raw).map (pdf_paths_for_hymn fsci globci d)).flatten ∧
      (resolveAll fsci globci d (parse_hymn_numbers raw)).2 =
        (parse_hymn_numbers raw).filter (fun n => (pdf_paths_for_hymn fsci globci d n).isEmpty) ∧
      resolveAll false false ⟨true, ["3.pdf".toList]⟩ (parse_hymn_numbers "3 1 3".toList) =
        (["3.pdf".toList, "3.pdf".toList], [1]) := by
  refine ⟨?_, ?_, by decide⟩
  · rw [resolveAll_eq]
  · rw [resolveAll_eq]

/-- C1: the orchestration fails with the no-valid-numbers kind exactly when parsing
yields the empty sequence; fails with the no-files-found kind, carrying the full parsed
number list as missing, exactly when the parse is non-empty but the flat file list is
empty; and otherwise proceeds with the ordered file list together with the possibly
empty missing list as a partial success. -/
theorem claim_C1 (fsci globci : Bool) (d : Directory) (raw : List Char) :
    (app_merge_pdfs fsci globci d raw = MergeOutcome.noValidNumbers ↔ parse_hymn_numbers raw = []) ∧
      (∀ miss, app_merge_pdfs fsci globci d raw = MergeOutcome.noFilesFound miss ↔
        (parse_hymn_numbers raw ≠ [] ∧ (resolveAll fsci globci d (parse_hymn_numbers raw)).1 = [] ∧
          miss = parse_hymn_numbers raw)) ∧
      (∀ fs miss, app_merge_pdfs fsci globci d raw = MergeOutcome.success fs miss ↔
        (parse_hymn_numbers raw ≠ [] ∧ fs = (resolveAll fsci globci d (parse_hymn_numbers raw)).1 ∧
          fs ≠ [] ∧ miss = (resolveAll fsci globci d (parse_hymn_numbers raw)).2)) := by
  unfold app_merge_pdfs
  by_cases h1 : (parse_hymn_numbers raw).isEmpty
  · have he : parse_hymn_numbers raw = [] := List.isEmpty_iff.mp h1
    exact ⟨by simp [h1, he], fun miss => by simp [h1, he], fun fs miss => by simp [h1, he]⟩
  · have h1' : (parse_hymn_numbers raw).isEmpty = false := by
      revert h1
      cases (parse_hymn_numbers raw).isEmpty <;> simp
    have hne : parse_hymn_numbers raw ≠ [] := by
      intro he
      rw [he] at h1'
      simp at h1'
    by_cases h2 : (resolveAll fsci globci d (parse_hymn_numbers raw)).1.isEmpty
    · have h2' : (resolveAll fsci globci d (parse_hymn_numbers raw)).1 = [] := List.isEmpty_iff.mp h2
      have hmiss := resolveAll_missing_of_empty fsci globci d _ h2'
      refine ⟨by simp [h1', h2, hne], fun miss => ?_, fun fs miss => ?_⟩
      · simp only [h1', h2, Bool.false_eq_true, if_false, if_true,
          MergeOutcome.noFilesFound.injEq]
        rw [hmiss]
        simp [hne, h2']
        exact eq_comm
      · simp only [h1', h2, Bool.false_eq_true, if_false, if_true]
        constructor
        · intro h
          exact absurd h (by simp)
        · rintro ⟨-, hfs, hfsne, -⟩
          exact absurd (hfs.trans h2') hfsne
    · have h2' : (resolveAll fsci globci d (parse_hymn_numbers raw)).1 ≠ [] := by
        intro he
        rw [he] at h2
        simp at h2
      have h2f : (resolveAll fsci globci d (parse_hymn_numbers raw)).1.isEmpty = false := by
        revert h2
        cases (resolveAll fsci globci d (parse_hymn_numbers raw)).1.isEmpty <;> simp
      refine ⟨by simp [h1', h2f, hne], fun miss => ?_, fun fs miss => ?_⟩
      · simp only [h1', h2f, Bool.false_eq_true, if_false]
        constructor
        · intro h
          exact absurd h (by simp)
        · rintro ⟨-, habs, -⟩
          exact absurd habs h2'
      · simp only [h1', h2f, Bool.false_eq_true, if_false, MergeOutcome.success.injEq]
        constructor
        · rintro ⟨hf, hm⟩
          exact ⟨hne, hf.symm, hf ▸ h2', hm.symm⟩
        · rintro ⟨-, hf, -, hm⟩
          exact ⟨hf.symm, hm.symm⟩

/-- Witness for C1: an input with no valid numbers fails with the no-valid-numbers kind. -/
theorem claim_C1_witness :
    app_merge_pdfs false false ⟨true, []⟩ "abc".toList = MergeOutcome.noValidNumbers :=
  (claim_C1 false false ⟨true, []⟩ "abc".toList).1.mpr (by decide)

/-! ### Claim theorems: file resolution -/

/-- C5: the resolver's result never contains a path twice and is sorted by the key of
page-marker value then lower-cased filename; page markers order multi-part files, and
marker-less files fall back to case-insensitive alphabetical order. -/
theorem claim_C5 :
    (∀ (fsci globci : Bool) (d : Directory) (n : Nat), (pdf_paths_for_hymn fsci globci d n).Nodup) ∧
      (∀ (fsci globci : Bool) (d : Directory) (n : Nat), (pdf_paths_for_hymn fsci globci d n).Sorted fileLE) ∧
      (∀ fsci globci, pdf_paths_for_hymn fsci globci ⟨true, ["7_PAGE2.pdf".toList, "7_PAGE1.pdf".toList]⟩ 7 =
          ["7_PAGE1.pdf".toList, "7_PAGE2.pdf".toList]) ∧
      (∀ fsci globci, pdf_paths_for_hymn fsci globci ⟨true, ["7_b.pdf".toList, "7_a.pdf".toList]⟩ 7 =
          ["7_a.pdf".toList, "7_b.pdf".toList]) := by
  refine ⟨?_, ?_, ?_, ?_⟩
  · intro fsci globci d n
    unfold pdf_paths_for_hymn
    split
    · exact List.nodup_nil
    · exact ((List.perm_insertionSort fileLE _).nodup_iff).mpr (List.nodup_dedup _)
  · intro fsci globci d n
    unfold pdf_paths_for_hymn
    split
    · exact List.sorted_nil
    · exact List.sorted_insertionSort fileLE _
  · intro fsci globci
    cases fsci <;> cases globci <;> decide
  · intro fsci globci
    cases fsci <;> cases globci <;> decide

theorem takeWhile_digits_lowers (name : List Char) :
    (lowers name).takeWhile isDigitC = name.takeWhile isDigitC := by
  unfold lowers
  rw [List.takeWhile_map]
  have hcomp : (isDigitC ∘ lowerChar) = isDigitC := funext isDigitC_lowerChar
  rw [hcomp]
  exact lowers_eq_self_of_digits (fun c hc => List.mem_takeWhile_imp hc)

theorem takeWhile_of_take_underscore {l : List Char} {n : Nat}
    (h : l.take (natStr n ++ ['_']).length = natStr n ++ ['_']) :
    l.takeWhile isDigitC = natStr n := by
  have h2 : l.takeWhile isDigitC =
      ((natStr n ++ ['_']) ++ l.drop (natStr n ++ ['_']).length).takeWhile isDigitC := by
    conv_lhs => rw [← List.take_append_drop (natStr n ++ ['_']).length l, h]
  rw [h2, List.append_assoc, List.singleton_append]
  exact takeWhile_append_stop _ _ (natStr_digits n) (by decide)

/-- C6: resolution never matches a longer number by prefix: with files 1.pdf and
12_intro.pdf present, resolving 1 returns only 1.pdf; in general every name in the
result of resolving n has exactly the digit string of n as its maximal leading digit
run, so no name whose leading digits properly extend n is ever included. -/
theorem claim_C6 :
    (∀ fsci globci, pdf_paths_for_hymn fsci globci ⟨true, ["1.pdf".toList, "12_intro.pdf".toList]⟩ 1 =
        ["1.pdf".toList]) ∧
      (∀ (fsci globci : Bool) (d : Directory) (n : Nat) (name : List Char),
        name ∈ pdf_paths_for_hymn fsci globci d n → name.takeWhile isDigitC = natStr n) := by
  constructor
  · intro fsci globci
    cases fsci <;> cases globci <;> decide
  · intro fsci globci d n name hmem
    rcases (mem_pdf_paths.mp hmem).2 with ⟨-, rfl⟩ | ⟨-, hg, -⟩
    · show (natStr n ++ ['.', 'p', 'd', 'f']).takeWhile isDigitC = natStr n
      have h : (natStr n ++ '.' :: ['p', 'd', 'f']).takeWhile isDigitC = natStr n :=
        takeWhile_append_stop _ _ (natStr_digits n) (by decide)
      simpa using h
    · simp only [globMatch, Bool.and_eq_true, decide_eq_true_eq] at hg
      cases globci
      · simp only [Bool.cond_false] at hg
        exact takeWhile_of_take_underscore hg.1.1
      · simp only [Bool.cond_true] at hg
        have hw := takeWhile_of_take_underscore hg.1.1
        rw [takeWhile_digits_lowers] at hw
        exact hw

/-- Witness for C6 over a concrete directory. -/
theorem claim_C6_witness : "1.pdf".toList.takeWhile isDigitC = natStr 1 :=
  claim_C6.2 false false ⟨true, ["1.pdf".toList, "12_intro.pdf".toList]⟩ 1 "1.pdf".toList (by decide)

theorem hasExact_ci_of_mem {d : Directory} {n : Nat} {ext : List Char}
    (hmem : (natStr n ++ ext) ∈ d.files) (hext : lowers ext = ['.', 'p', 'd', 'f']) :
    hasExact true d n = true := by
  unfold hasExact
  rw [List.any_eq_true]
  refine ⟨natStr n ++ ext, hmem, ?_⟩
  show decide (lowers (natStr n ++ ext) = lowers (exactName n)) = true
  rw [decide_eq_true_eq, lowers_append, lowers_natStr, hext]
  unfold exactName
  rw [lowers_append, lowers_natStr]
  rw [show lowers ['.', 'p', 'd', 'f'] = ['.', 'p', 'd', 'f'] from by decide]

theorem globMatch_ci_parts (n : Nat) (mid ext : List Char) (hmid : mid ≠ [])
    (hext : lowers ext = ['.', 'p', 'd', 'f']) :
    globMatch true n (natStr n ++ '_' :: (mid ++ ext)) = true := by
  have hlow : lowers (natStr n ++ '_' :: (mid ++ ext)) =
      (natStr n ++ ['_']) ++ (lowers mid ++ ['.', 'p', 'd', 'f']) := by
    rw [lowers_append, lowers_cons, lowers_append, hext, lowers_natStr,
      show lowerChar '_' = '_' from by decide]
    simp [List.append_assoc]
  have hml : 1 ≤ (lowers mid).length := by
    rw [lowers_length]
    cases mid with
    | nil => exact absurd rfl hmid
    | cons a l => simp
  simp only [globMatch, Bool.cond_true, hlow]
  have h1 : ((natStr n ++ ['_']) ++ (lowers mid ++ ['.', 'p', 'd', 'f'])).take
      (natStr n ++ ['_']).length = natStr n ++ ['_'] := List.take_left _ _
  have h2 : (natStr n ++ ['_']).length + 4 ≤
      ((natStr n ++ ['_']) ++ (lowers mid ++ ['.', 'p', 'd', 'f'])).length := by
    simp
    omega
  have h3 : ((natStr n ++ ['_']) ++ (lowers mid ++ ['.', 'p', 'd', 'f'])).drop
      (((natStr n ++ ['_']) ++ (lowers mid ++ ['.', 'p', 'd', 'f'])).length - 4) =
      ['.', 'p', 'd', 'f'] := by
    rw [show (natStr n ++ ['_']) ++ (lowers mid ++ ['.', 'p', 'd', 'f']) =
        ((natStr n ++ ['_']) ++ lowers mid) ++ ['.', 'p', 'd', 'f'] from by
      simp [List.append_assoc]]
    apply List.drop_left'
    simp
    omega
  rw [h1, h3]
  simp only [decide_eq_true_eq, Bool.and_eq_true]
  refine ⟨⟨by trivial, ?_⟩, by trivial⟩
  simp
  omega

theorem patternMatch_parts {n : Nat} {c : Char} {mid ext : List Char}
    (hc : c = '.' ∨ c = '_') (hmid : mid ≠ []) (hnl : ∀ x ∈ mid, x ≠ '\n')
    (hext : lowers ext = ['.', 'p', 'd', 'f']) :
    patternMatch n (natStr n ++ c :: (mid ++ ext)) = true := by
  have hextlen : ext.length = 4 := by
    have h := congrArg List.length hext
    rw [lowers_length] at h
    simpa using h
  have hmidlen : 1 ≤ mid.length := by
    cases mid with
    | nil => exact absurd rfl hmid
    | cons a l => simp
  have htail : matchesTailPdf (mid ++ ext) = true := by
    unfold matchesTailPdf
    have hlen : 5 ≤ (mid ++ ext).length := by
      simp [hextlen]
      omega
    have hdrop : (mid ++ ext).drop ((mid ++ ext).length - 4) = ext :=
      List.drop_left' (by simp [hextlen])
    have htake : (mid ++ ext).take ((mid ++ ext).length - 4) = mid :=
      List.take_left' (by simp [hextlen])
    rw [hdrop, htake, hext]
    refine (Bool.and_eq_true _ _).mpr ⟨(Bool.and_eq_true _ _).mpr
      ⟨decide_eq_true hlen, decide_eq_true rfl⟩, ?_⟩
    exact List.all_eq_true.mpr fun x hx => decide_eq_true (hnl x hx)
  unfold patternMatch
  rw [List.take_left, List.drop_left]
  rcases hc with rfl | rfl <;> simp [htail]

/-- C7 (amended): only the regex re-check is unconditionally case-insensitive; the two
enumeration steps each follow their own case rule.  Exact name: wherever `Path.exists`
matches case-insensitively (Windows, default macOS volumes), a file named with the
digits of n and any casing of the .pdf extension makes the resolver include the
constructed lower-case exact path, whatever the glob flavour.  Glob: only where the
glob matches case-insensitively (Windows) is an underscore-glob-shaped file with a
non-lowercase extension included itself, just as its lower-case counterpart would be.
In the macOS combination — case-insensitive `Path.exists` but posix-flavour,
case-sensitive `Path.glob` — the exact part still holds while an upper-cased
underscore file is not included although its lower-case counterpart is; with both
checks case-sensitive neither file is found, see the counterexample. -/
theorem claim_C7 :
    (∀ (globci : Bool) (d : Directory) (n : Nat) (ext : List Char), d.dirExists = true →
        (natStr n ++ ext) ∈ d.files → lowers ext = ['.', 'p', 'd', 'f'] →
        exactName n ∈ pdf_paths_for_hymn true globci d n) ∧
      (∀ (fsci : Bool) (d : Directory) (n : Nat) (mid ext : List Char), d.dirExists = true →
        (natStr n ++ '_' :: (mid ++ ext)) ∈ d.files → mid ≠ [] → (∀ x ∈ mid, x ≠ '\n') →
        lowers ext = ['.', 'p', 'd', 'f'] →
        (natStr n ++ '_' :: (mid ++ ext)) ∈ pdf_paths_for_hymn fsci true d n) ∧
      (pdf_paths_for_hymn true false ⟨true, ["1.PDF".toList]⟩ 1 = ["1.pdf".toList] ∧
        pdf_paths_for_hymn true false ⟨true, ["1_a.PDF".toList]⟩ 1 = [] ∧
        pdf_paths_for_hymn true false ⟨true, ["1_a.pdf".toList]⟩ 1 = ["1_a.pdf".toList]) := by
  refine ⟨?_, ?_, by decide, by decide, by decide⟩
  · intro globci d n ext hd hmem hext
    exact mem_pdf_paths.mpr ⟨hd, Or.inl ⟨hasExact_ci_of_mem hmem hext, rfl⟩⟩
  · intro fsci d n mid ext hd hmem hmid hnl hext
    exact mem_pdf_paths.mpr ⟨hd, Or.inr ⟨hmem, globMatch_ci_parts n mid ext hmid hext,
      patternMatch_parts (Or.inr rfl) hmid hnl hext⟩⟩

/-- C7 counterexample: the claim fails as stated outside Windows.  With both case rules
case-sensitive (POSIX), neither an upper-cased exact file nor an upper-cased underscore
file is found although the lower-cased counterparts are; and even with a
case-insensitive filesystem, the posix-flavour case-sensitive glob (macOS) misses the
upper-cased underscore file. -/
theorem claim_C7_counterexample :
    pdf_paths_for_hymn false false ⟨true, ["1.PDF".toList]⟩ 1 = [] ∧
      pdf_paths_for_hymn false false ⟨true, ["1.pdf".toList]⟩ 1 = ["1.pdf".toList] ∧
      pdf_paths_for_hymn false false ⟨true, ["1_a.PDF".toList]⟩ 1 = [] ∧
      pdf_paths_for_hymn false false ⟨true, ["1_a.pdf".toList]⟩ 1 = ["1_a.pdf".toList] ∧
      pdf_paths_for_hymn true false ⟨true, ["1_a.PDF".toList]⟩ 1 = [] := by
  refine ⟨by decide, by decide, by decide, by decide, by decide⟩

/-- Witness for C7: the exact part at the macOS flag combination, the glob part at the
Windows one. -/
theorem claim_C7_witness :
    exactName 1 ∈ pdf_paths_for_hymn true false ⟨true, ["1.PDF".toList]⟩ 1 ∧
      "1_a.PDF".toList ∈ pdf_paths_for_hymn true true ⟨true, ["1_a.PDF".toList]⟩ 1 := by
  constructor
  · exact claim_C7.1 false ⟨true, ["1.PDF".toList]⟩ 1 ".PDF".toList (by decide) (by decide)
      (by decide)
  · have h := claim_C7.2.1 true ⟨true, ["1_a.PDF".toList]⟩ 1 ['a'] ".PDF".toList (by decide)
      (by decide) (by decide) (by decide) (by decide)
    have he : natStr 1 ++ '_' :: (['a'] ++ ".PDF".toList) = "1_a.PDF".toList := by decide
    rwa [he] at h

theorem globMatch_dot_false (globci : Bool) (n : Nat) (rest : List Char) :
    globMatch globci n (natStr n ++ '.' :: rest) ≠ true := by
  intro hg
  simp only [globMatch, Bool.and_eq_true, decide_eq_true_eq] at hg
  have htake := hg.1.1
  have hform : cond globci (lowers (natStr n ++ '.' :: rest)) (natStr n ++ '.' :: rest) =
      (natStr n ++ ['.']) ++ cond globci (lowers rest) rest := by
    cases globci
    · simp [List.append_assoc]
    · rw [Bool.cond_true, Bool.cond_true, lowers_append, lowers_cons, lowers_natStr,
        show lowerChar '.' = '.' from by decide]
      simp [List.append_assoc]
  rw [hform, List.take_left' (by simp : (natStr n ++ ['.']).length = (natStr n ++ ['_']).length)]
      at htake
  have h2 := List.append_cancel_left htake
  exact absurd h2 (by decide)

/-- C10: a dot-separated variant other than the exact name is never returned: a name of
the shape digits, dot, non-empty extra, then .pdf matches the documented regex yet is
excluded from every resolution result for that number, because only the exact name and
the underscore glob are ever considered. -/
theorem claim_C10 (fsci globci : Bool) (d : Directory) (n : Nat) (extra : List Char)
    (hne : extra ≠ []) (hnl : ∀ x ∈ extra, x ≠ '\n') :
    patternMatch n (natStr n ++ '.' :: (extra ++ ['.', 'p', 'd', 'f'])) = true ∧
      (natStr n ++ '.' :: (extra ++ ['.', 'p', 'd', 'f'])) ∉ pdf_paths_for_hymn fsci globci d n := by
  constructor
  · exact patternMatch_parts (Or.inl rfl) hne hnl (by decide)
  · intro hmem
    rcases (mem_pdf_paths.mp hmem).2 with ⟨-, heq⟩ | ⟨-, hg, -⟩
    · unfold exactName at heq
      have h2 : '.' :: (extra ++ ['.', 'p', 'd', 'f']) = ['.', 'p', 'd', 'f'] :=
        List.append_cancel_left heq
      have h3 := congrArg List.length h2
      simp at h3
    · exact globMatch_dot_false globci n _ hg

/-- Witness for C10 at the concrete file 1.intro.pdf. -/
theorem claim_C10_witness :
    patternMatch 1 (natStr 1 ++ '.' :: ("intro".toList ++ ['.', 'p', 'd', 'f'])) = true ∧
      (natStr 1 ++ '.' :: ("intro".toList ++ ['.', 'p', 'd', 'f'])) ∉
        pdf_paths_for_hymn false false ⟨true, ["1.intro.pdf".toList]⟩ 1 :=
  claim_C10 false false ⟨true, ["1.intro.pdf".toList]⟩ 1 "intro".toList (by decide) (by decide)

/-! ### Claim theorems: output path handling -/

theorem endsWithPdf_append (cs : List Char) : endsWithPdf (cs ++ ['.', 'p', 'd', 'f']) = true := by
  unfold endsWithPdf
  rw [lowers_append, show lowers ['.', 'p', 'd', 'f'] = ['.', 'p', 'd', 'f'] from by decide]
  have hlen : 4 ≤ (lowers cs ++ ['.', 'p', 'd', 'f']).length := by
    simp
  have hdrop : (lowers cs ++ ['.', 'p', 'd', 'f']).drop
      ((lowers cs ++ ['.', 'p', 'd', 'f']).length - 4) = ['.', 'p', 'd', 'f'] :=
    List.drop_left' (by simp)
  show (decide (4 ≤ (lowers cs ++ ['.', 'p', 'd', 'f']).length) &&
    decide (List.drop ((lowers cs ++ ['.', 'p', 'd', 'f']).length - 4)
      (lowers cs ++ ['.', 'p', 'd', 'f']) = ['.', 'p', 'd', 'f'])) = true
  rw [hdrop]
  simp [hlen]

/-- C8: the caller-side filename fixup appends .pdf exactly when the supplied name does
not already end in .pdf up to case, so the processed name always ends in .pdf; an
absolute output path is used exactly as given; a relative one is re-rooted in the
configured output directory by its final component; and the effect trace of the merge
collaborator creates the output's parent directory tree before writing the output. -/
theorem claim_C8 :
    (∀ cs : List Char, endsWithPdf cs = true → ensure_pdf_ext cs = cs) ∧
      (∀ cs : List Char, endsWithPdf cs = false →
        ensure_pdf_ext cs = cs ++ ['.', 'p', 'd', 'f']) ∧
      (∀ cs : List Char, endsWithPdf (ensure_pdf_ext cs) = true) ∧
      (∀ cs : List Char, ensure_pdf_ext cs = cs ↔ endsWithPdf cs = true) ∧
      (∀ (odir : PyPath) (cs : List Char), (pathOfChars cs).isAbs = true →
        output_path_for odir cs = pathOfChars cs) ∧
      (∀ (odir : PyPath) (cs : List Char), (pathOfChars cs).isAbs = false →
        output_path_for odir cs = pyJoin odir (pyName (pathOfChars cs))) ∧
      (∀ (ins : List (List Char)) (out : PyPath),
        (merge_pdfs_events ins out).head? = some (FSEvent.mkdirParents (pyParent out)) ∧
          FSEvent.writeOutput out ∈ (merge_pdfs_events ins out).tail) := by
  refine ⟨?_, ?_, ?_, ?_, ?_, ?_, ?_⟩
  · intro cs h
    unfold ensure_pdf_ext
    rw [if_pos h]
  · intro cs h
    unfold ensure_pdf_ext
    rw [if_neg]
    simp [h]
  · intro cs
    unfold ensure_pdf_ext
    by_cases h : endsWithPdf cs = true
    · rw [if_pos h]
      exact h
    · rw [if_neg h]
      exact endsWithPdf_append cs
  · intro cs
    constructor
    · intro h
      by_cases hp : endsWithPdf cs = true
      · exact hp
      · exfalso
        unfold ensure_pdf_ext at h
        rw [if_neg hp] at h
        have := congrArg List.length h
        simp at this
    · intro h
      unfold ensure_pdf_ext
      rw [if_pos h]
  · intro odir cs h
    unfold output_path_for
    rw [if_pos h]
  · intro odir cs h
    unfold output_path_for
    rw [if_neg]
    simp [h]
  · intro ins out
    refine ⟨rfl, ?_⟩
    show FSEvent.writeOutput out ∈ ins.map FSEvent.appendInput ++ [FSEvent.writeOutput out]
    simp

/-- Witness for C8 on concrete filenames. -/
theorem claim_C8_witness :
    ensure_pdf_ext "combined".toList = "combined".toList ++ ['.', 'p', 'd', 'f'] ∧
      ensure_pdf_ext "combined.PDF".toList = "combined.PDF".toList :=
  ⟨claim_C8.2.1 "combined".toList (by decide),
    claim_C8.1 "combined.PDF".toList (by decide)⟩

end HymnCombiner
